import Mathlib

/-!
# Verification of the investool hybrid-retrieval core

Shallow embedding of `finrisk_ai/rag/hybrid_search.py` and
`finrisk_ai/rag/graph_rag.py`.

Modelling conventions:
* Python floats are modelled as `ℚ` (all score arithmetic in the embedded
  code is sums, divisions and comparisons on small values).
* Python `dict` (insertion-ordered, assignment updates in place or appends)
  is modelled as an association list with `dictInsert` / `dictGet`.
* Python's stable `sorted` / `list.sort` is modelled by
  `List.insertionSort`, which is stable and structurally recursive.
* `np.argsort` is modelled as a stable ascending argsort (ties resolved by
  index), the behaviour numpy exhibits on small arrays.
* The external embedding model, BM25 scorer and cross-encoder are injected
  function parameters, matching the spec's "injected dependencies" (§6).
-/

attribute [local semireducible] Rat.add Rat.mul Rat.inv Rat.sub

/-- Model of a Python `dict` lookup on an insertion-ordered association
list: return the value at the first (unique) occurrence of the key. -/
def dictGet {κ ν : Type} [DecidableEq κ] : List (κ × ν) → κ → Option ν
  | [], _ => none
  | p :: rest, k => if p.1 = k then some p.2 else dictGet rest k

/-- Model of Python `d[k] = v`: replace the value at the first occurrence
of the key in place, otherwise append the new binding at the end. -/
def dictInsert {κ ν : Type} [DecidableEq κ] : List (κ × ν) → κ → ν → List (κ × ν)
  | [], k, v => [(k, v)]
  | p :: rest, k, v => if p.1 = k then (k, v) :: rest else p :: dictInsert rest k v

/-- `dictGet` with a default value, modelling Python `d.get(k, v0)`. -/
def dictGetD {κ ν : Type} [DecidableEq κ] (d : List (κ × ν)) (k : κ) (v0 : ν) : ν :=
  (dictGet d k).getD v0

/-- `Document` dataclass from `hybrid_search.py`. -/
structure Document where
  content : String
  metadata : List (String × String)
  doc_id : String
  score : ℚ
  source : String
  deriving DecidableEq, Inhabited

/-- `RelationshipType` enum from `graph_rag.py`. -/
inductive RelationshipType where
  | affects
  | correlates_with
  | component_of
  | derived_from
  | inverse_of
  | causes
  | influences
  deriving DecidableEq, Inhabited

/-- The `.value` string of each `RelationshipType` enum member. -/
def RelationshipType.value : RelationshipType → String
  | .affects => "affects"
  | .correlates_with => "correlates_with"
  | .component_of => "component_of"
  | .derived_from => "derived_from"
  | .inverse_of => "inverse_of"
  | .causes => "causes"
  | .influences => "influences"

/-- `GraphNode` dataclass from `graph_rag.py`. -/
structure GraphNode where
  node_id : String
  entity_type : String
  name : String
  description : String
  metadata : List (String × String)
  deriving DecidableEq, Inhabited

/-- `GraphEdge` dataclass from `graph_rag.py`. -/
structure GraphEdge where
  source_id : String
  target_id : String
  relationship : RelationshipType
  weight : ℚ
  metadata : List (String × String)
  deriving DecidableEq, Inhabited

/-- `GraphContext` dataclass from `graph_rag.py`. -/
structure GraphContext where
  nodes : List GraphNode
  edges : List GraphEdge
  paths : List (List String)
  subgraph_description : String
  deriving DecidableEq, Inhabited

/-- Edge attributes stored in the `networkx` digraph by
`GraphRAG.add_edge`: the relationship (stored in Python as its `.value`
string, represented here by the enum member itself, the correspondence
being bijective) and the weight.  The splatted `metadata` entries are
never read back and are omitted. -/
structure EdgeAttrs where
  relationship : RelationshipType
  weight : ℚ
  deriving DecidableEq, Inhabited

/-- Model of the `networkx.DiGraph` used by `GraphRAG`: insertion-ordered
node list and an insertion-ordered edge-attribute dict keyed by the
`(source, target)` pair (a `DiGraph` has at most one edge per pair;
`add_edge` overwrites the attributes). -/
structure NxDiGraph where
  nodeList : List String
  edgeList : List ((String × String) × EdgeAttrs)
  deriving DecidableEq, Inhabited

/-- `networkx` implicitly registers a node when first seen. -/
def NxDiGraph.addNode (g : NxDiGraph) (n : String) : NxDiGraph :=
  if n ∈ g.nodeList then g else { g with nodeList := g.nodeList ++ [n] }

/-- `DiGraph.add_edge`: registers both endpoints, then sets the edge
attributes (overwriting any previous attributes of the same edge). -/
def NxDiGraph.addEdge (g : NxDiGraph) (u v : String) (attrs : EdgeAttrs) : NxDiGraph :=
  let g1 := (g.addNode u).addNode v
  { g1 with edgeList := dictInsert g1.edgeList (u, v) attrs }

/-- The successor adjacency of `u`: pairs `(neighbor, edge attributes)` in
per-node insertion order, as iterated by `self.graph.neighbors(u)`
together with `self.graph[u][nb]`. -/
def NxDiGraph.adj (g : NxDiGraph) (u : String) : List (String × EdgeAttrs) :=
  (g.edgeList.filter (fun e => e.1.1 = u)).map (fun e => (e.1.2, e.2))

/-- Direct out-neighbor ids of `u`. -/
def NxDiGraph.outNeighbors (g : NxDiGraph) (u : String) : List String :=
  (g.adj u).map (fun p => p.1)

/-- The `GraphRAG` state: the `networkx` digraph plus the `self.nodes`
dict mapping node id to `GraphNode`. -/
structure GraphRAG where
  graph : NxDiGraph
  nodes : List (String × GraphNode)
  deriving DecidableEq, Inhabited

/-- `GraphRAG.__init__`: empty digraph and empty node dict. -/
def GraphRAG.init : GraphRAG := ⟨⟨[], []⟩, []⟩

/-- `GraphRAG.add_node`: store the node in `self.nodes` under its id and
register the id in the digraph (node attributes are never read back from
the digraph and are omitted). -/
def GraphRAG.add_node (g : GraphRAG) (node : GraphNode) : GraphRAG :=
  { graph := g.graph.addNode node.node_id,
    nodes := dictInsert g.nodes node.node_id node }

/-- `GraphRAG.add_edge`: add a directed edge carrying the relationship
value and the weight to the digraph. -/
def GraphRAG.add_edge (g : GraphRAG) (edge : GraphEdge) : GraphRAG :=
  { g with graph := g.graph.addEdge edge.source_id edge.target_id ⟨edge.relationship, edge.weight⟩ }

/-- `GraphRAG.find_node_by_name`: first node (in insertion order of
`self.nodes`) whose name matches case-insensitively. -/
def GraphRAG.find_node_by_name (g : GraphRAG) (name : String) : Option GraphNode :=
  (g.nodes.map (fun p => p.2)).find? (fun node => node.name.toLower = name.toLower)

/- ### Hybrid search engine (`hybrid_search.py`) -/

/-- Ordering used by Python's `sorted(..., key=lambda x: x[1], reverse=True)`
and `list.sort(key=lambda x: x[1], reverse=True)`: `a` may precede `b` iff
`a`'s score is at least `b`'s.  `List.insertionSort` with this relation is
the stable descending sort those calls perform. -/
def descBySnd {α : Type} (a b : α × ℚ) : Prop := b.2 ≤ a.2

instance descBySndDec {α : Type} : DecidableRel (@descBySnd α) :=
  fun a b => inferInstanceAs (Decidable (b.2 ≤ a.2))

/-- Ordering of indices used to model `np.argsort` (ascending, stable:
ties resolved by index, which is what numpy's sort does on these inputs). -/
def argsortRel (scores : List ℚ) (i j : ℕ) : Prop :=
  scores.getD i 0 < scores.getD j 0 ∨ (scores.getD i 0 = scores.getD j 0 ∧ i ≤ j)

instance argsortRelDec (scores : List ℚ) : DecidableRel (argsortRel scores) :=
  fun i j => inferInstanceAs (Decidable
    (scores.getD i 0 < scores.getD j 0 ∨ (scores.getD i 0 = scores.getD j 0 ∧ i ≤ j)))

/-- Model of `np.argsort(scores)`: the indices `0, …, len-1` sorted
ascending by score (stable). -/
def argsort (scores : List ℚ) : List ℕ :=
  (List.range scores.length).insertionSort (argsortRel scores)

/-- Model of `np.argsort(scores)[::-1]`. -/
def argsortDesc (scores : List ℚ) : List ℕ :=
  (argsort scores).reverse

/-- Core of `HybridSearchEngine.dense_search` after the indexing check:
given the per-document similarity array (computed in the source by
`np.dot(self.embeddings, q) / (norms * norm(q))` over the injected
embedding model), take the `top_k` highest-similarity indices
(`np.argsort(similarities)[::-1][:top_k]`) and return the corresponding
`(document, score)` pairs. -/
def dense_search (documents : List Document) (similarities : List ℚ) (top_k : ℕ) :
    List (Document × ℚ) :=
  ((argsortDesc similarities).take top_k).map
    (fun idx => (documents.getD idx default, similarities.getD idx 0))

/-- Core of `HybridSearchEngine.sparse_search` after the indexing check:
given the BM25 score array (computed in the source by
`self.bm25.get_scores(tokenized_query)` from the external `rank_bm25`
library), take the `top_k` highest-score indices, keep only strictly
positive scores, and truncate to `top_k` again. -/
def sparse_search (documents : List Document) (scores : List ℚ) (top_k : ℕ) :
    List (Document × ℚ) :=
  let top_indices := (argsortDesc scores).take top_k
  (top_indices.filterMap (fun idx =>
    if 0 < scores.getD idx 0 then
      some (documents.getD idx default, scores.getD idx 0)
    else none)).take top_k

/-- One step of the RRF accumulation loop body
`doc_scores[doc.doc_id] = doc_scores.get(doc.doc_id, 0) + 1 / (k + rank)`. -/
def rrfStep (k : ℤ) (acc : List (String × ℚ)) (p : ℕ × (Document × ℚ)) :
    List (String × ℚ) :=
  dictInsert acc p.2.1.doc_id (dictGetD acc p.2.1.doc_id 0 + 1 / ((k : ℚ) + (p.1 : ℚ)))

/-- The RRF accumulation loop `for rank, (doc, _) in enumerate(results, start=1)`. -/
def rrfAdd (k : ℤ) (results : List (Document × ℚ)) (acc : List (String × ℚ)) :
    List (String × ℚ) :=
  (List.enumFrom 1 results).foldl (rrfStep k) acc

/-- `HybridSearchEngine.reciprocal_rank_fusion`: accumulate `1/(k+rank)`
contributions keyed by `doc_id` over the dense then the sparse list, build
the id → document lookup over `dense_results + sparse_results`, sort the
score dict items descending by score (Python's stable `sorted`), and
resolve ids back to documents. -/
def HybridSearchEngine.reciprocal_rank_fusion
    (dense_results sparse_results : List (Document × ℚ)) (k : ℤ) :
    List (Document × ℚ) :=
  let doc_scores := rrfAdd k sparse_results (rrfAdd k dense_results [])
  let all_docs := (dense_results ++ sparse_results).foldl
    (fun d p => dictInsert d p.1.doc_id p.1) []
  let sorted_docs := List.insertionSort descBySnd doc_scores
  sorted_docs.filterMap (fun p => (dictGet all_docs p.1).map (fun doc => (doc, p.2)))

/-- `HybridSearchEngine.rerank`: score each candidate with the injected
pairwise scorer on `(query, doc.content)` (the source's cross-encoder
`self.reranker.predict`), pair documents with the new scores, sort
descending by the new score (stable), and return the first `top_k`. -/
def HybridSearchEngine.rerank (predict : String → String → ℚ) (query : String)
    (candidates : List (Document × ℚ)) (top_k : ℕ) : List (Document × ℚ) :=
  let pairs := candidates.map (fun p => (query, p.1.content))
  let rerank_scores := pairs.map (fun qd => predict qd.1 qd.2)
  let reranked := (candidates.zip rerank_scores).map (fun z => (z.1.1, z.2))
  (List.insertionSort descBySnd reranked).take top_k

/-- Python `str.lower()` (ASCII, which is all the embedded code feeds it). -/
def lowerL (s : List Char) : List Char := s.map Char.toLower

/-- Helper for `splitWs`: accumulates the current (reversed) token. -/
def splitWsAcc (cur : List Char) : List Char → List (List Char)
  | [] => if cur.isEmpty then [] else [cur.reverse]
  | c :: cs =>
    if c.isWhitespace then
      if cur.isEmpty then splitWsAcc [] cs else cur.reverse :: splitWsAcc [] cs
    else splitWsAcc (c :: cur) cs

/-- Python `str.split()` with no argument: split on whitespace runs,
dropping empty tokens. -/
def splitWs (s : List Char) : List (List Char) :=
  splitWsAcc [] s

/-- Python `text.lower().split()`, the tokenization used for BM25 indexing,
BM25 queries and graph queries. -/
def pyTokenize (s : String) : List (List Char) :=
  splitWs (lowerL s.toList)

/-- The error raised by `dense_search`/`sparse_search` when no corpus has
been indexed (the spec's `NotIndexedError` taxonomy entry; the Python code
realizes it as `ValueError("Documents not indexed. Call index_documents()
first.")`). -/
inductive SearchError where
  | notIndexed
  deriving DecidableEq, Inhabited

/-- `HybridSearchEngine` mutable state: the document list, the optional
embedding matrix (`None` until indexed) and the optional BM25 index
(`None` until indexed; its state is the tokenized corpus). -/
structure HybridSearchEngine where
  documents : List Document
  embeddings : Option (List (List ℚ))
  bm25 : Option (List (List (List Char)))
  deriving DecidableEq, Inhabited

/-- `HybridSearchEngine.__init__`: no documents, nothing indexed. -/
def HybridSearchEngine.initEngine : HybridSearchEngine := ⟨[], none, none⟩

/-- `HybridSearchEngine.index_documents`: replace the corpus, embed every
document content with the injected embedding model, and build the BM25
index over the lower-cased whitespace-tokenized corpus. -/
def HybridSearchEngine.index_documents (encode : String → List ℚ)
    (_e : HybridSearchEngine) (documents : List Document) : HybridSearchEngine :=
  { documents := documents,
    embeddings := some (documents.map (fun doc => encode doc.content)),
    bm25 := some (documents.map (fun doc => pyTokenize doc.content)) }

/-- `HybridSearchEngine.dense_search` as a method: raise if not indexed,
otherwise rank by the similarity array `sim embs query` (the cosine
similarities computed by numpy over the injected embeddings). -/
def HybridSearchEngine.dense_search_checked (sim : List (List ℚ) → String → List ℚ)
    (e : HybridSearchEngine) (query : String) (top_k : ℕ) :
    Except SearchError (List (Document × ℚ)) :=
  match e.embeddings with
  | none => .error .notIndexed
  | some embs => .ok (dense_search e.documents (sim embs query) top_k)

/-- `HybridSearchEngine.sparse_search` as a method: raise if not indexed,
otherwise rank by the BM25 scores of the tokenized query (computed by the
external `rank_bm25` library from the indexed tokenized corpus). -/
def HybridSearchEngine.sparse_search_checked
    (getScores : List (List (List Char)) → List (List Char) → List ℚ)
    (e : HybridSearchEngine) (query : String) (top_k : ℕ) :
    Except SearchError (List (Document × ℚ)) :=
  match e.bm25 with
  | none => .error .notIndexed
  | some corpus => .ok (sparse_search e.documents (getScores corpus (pyTokenize query)) top_k)

/-- `RetrievalResult` dataclass (the `retrieval_metadata` dict of counts is
omitted; no claim concerns it). -/
structure RetrievalResult where
  documents : List Document
  dense_scores : List ℚ
  sparse_scores : List ℚ
  fusion_scores : List ℚ
  rerank_scores : List ℚ
  deriving DecidableEq, Inhabited

/-- `HybridSearchEngine.advanced_rag_pipeline`: dense retrieval, sparse
retrieval, reciprocal rank fusion with `k = 60`, cross-encoder rerank. -/
def HybridSearchEngine.advanced_rag_pipeline
    (sim : List (List ℚ) → String → List ℚ)
    (getScores : List (List (List Char)) → List (List Char) → List ℚ)
    (predict : String → String → ℚ)
    (e : HybridSearchEngine) (user_query : String)
    (top_k_dense top_k_sparse top_k_final : ℕ) :
    Except SearchError RetrievalResult :=
  match e.dense_search_checked sim user_query top_k_dense with
  | .error err => .error err
  | .ok dense_results =>
    match e.sparse_search_checked getScores user_query top_k_sparse with
    | .error err => .error err
    | .ok sparse_results =>
      let fused_results := HybridSearchEngine.reciprocal_rank_fusion dense_results sparse_results 60
      let reranked_results := HybridSearchEngine.rerank predict user_query fused_results top_k_final
      .ok { documents := reranked_results.map (fun p => p.1),
            dense_scores := (dense_results.take top_k_final).map (fun p => p.2),
            sparse_scores := (sparse_results.take top_k_final).map (fun p => p.2),
            fusion_scores := (fused_results.take top_k_final).map (fun p => p.2),
            rerank_scores := reranked_results.map (fun p => p.2) }

/- ### Graph traversal (`graph_rag.py`) -/

/-- The relationship-type filter of `find_related_nodes`: the Python test
`relationship_type and edge_data['relationship'] != relationship_type.value`. -/
def rtMismatch : Option RelationshipType → RelationshipType → Bool
  | none, _ => false
  | some r, rel => rel.value != r.value

/-- The loop body of `find_related_nodes` for one neighbor: skip it when
already visited or when the edge fails the relationship filter; otherwise
mark it visited and record it as newly discovered.  The state is
`(visited, newly discovered)`. -/
def bfsVisit (rt : Option RelationshipType) (st : List String × List String)
    (p : String × EdgeAttrs) : List String × List String :=
  if p.1 ∈ st.1 then st
  else if rtMismatch rt p.2.relationship then st
  else (st.1 ++ [p.1], st.2 ++ [p.1])

/-- Process one dequeued node of the BFS of `find_related_nodes`: walk its
neighbors in adjacency order applying `bfsVisit`. -/
def bfsExpand (g : NxDiGraph) (rt : Option RelationshipType) (current : String)
    (st : List String × List String) : List String × List String :=
  (g.adj current).foldl (bfsVisit rt) st

/-- One BFS layer: expand every frontier node in FIFO order, returning the
updated visited set and the newly discovered node ids. -/
def bfsLayer (g : NxDiGraph) (rt : Option RelationshipType)
    (frontier visited : List String) : List String × List String :=
  frontier.foldl (fun st cur => bfsExpand g rt cur st) (visited, [])

/-- The BFS while-loop of `find_related_nodes`, layer by layer.  The
source's queue holds `(node, depth)` pairs in FIFO order, marks nodes
visited when first discovered, records every discovered node in
`related_ids`, and stops expanding at `depth >= max_depth`; since depths
are nondecreasing along the queue this loop is exactly a traversal of
`max_depth` layers. -/
def bfsRun (g : NxDiGraph) (rt : Option RelationshipType) :
    ℕ → List String → List String → List String → List String
  | 0, _, _, related => related
  | d + 1, frontier, visited, related =>
    let st := bfsLayer g rt frontier visited
    bfsRun g rt d st.2 st.1 (related ++ st.2)

/-- `GraphRAG.find_related_nodes` (the source's `related_ids` Python set is
represented here in discovery order; the source iterates the set in
unspecified order and the spec reads the result as a set). -/
def GraphRAG.find_related_nodes (g : GraphRAG) (node_id : String)
    (relationship_type : Option RelationshipType) (max_depth : ℕ) : List GraphNode :=
  if node_id ∈ g.graph.nodeList then
    (bfsRun g.graph relationship_type max_depth [node_id] [node_id] []).filterMap
      (fun nid => dictGet g.nodes nid)
  else []

/-- The DFS of `networkx.all_simple_paths`: the suffixes of simple paths
continuing from `current` to `target` using at most the given number of
edges and avoiding `visited`, in DFS order over adjacency order. -/
def simplePathsFrom (g : NxDiGraph) (target : String) :
    ℕ → String → List String → List (List String)
  | 0, _, _ => []
  | c + 1, current, visited =>
    (g.outNeighbors current).flatMap
      (fun nb =>
        if nb ∈ visited then []
        else if nb = target then [[nb]]
        else (simplePathsFrom g target c nb (visited ++ [nb])).map (fun suffix => nb :: suffix))

/-- `nx.all_simple_paths(G, source, target, cutoff)`: the simple directed
paths from `source` to `target` with at most `cutoff` edges.  When
`source == target` networkx yields exactly the trivial single-node path. -/
def all_simple_paths (g : NxDiGraph) (source target : String) (cutoff : ℕ) :
    List (List String) :=
  if source = target then [[source]]
  else (simplePathsFrom g target cutoff source [source]).map (fun suffix => source :: suffix)

/-- Ordering by path length: the key of `sorted(all_paths, key=len)`. -/
def byLen (p q : List String) : Prop := p.length ≤ q.length

instance byLenDec : DecidableRel byLen :=
  fun p q => inferInstanceAs (Decidable (p.length ≤ q.length))

/-- `GraphRAG.find_paths`: empty if either endpoint is missing, otherwise
the `max_paths` shortest simple paths of at most 4 edges, shortest first.
(The `except nx.NetworkXNoPath` handler in the source is dead code:
`all_simple_paths` yields an empty sequence instead of raising.) -/
def GraphRAG.find_paths (g : GraphRAG) (source_id target_id : String)
    (max_paths : ℕ) : List (List String) :=
  if source_id ∉ g.graph.nodeList ∨ target_id ∉ g.graph.nodeList then []
  else
    (List.insertionSort byLen (all_simple_paths g.graph source_id target_id 4)).take max_paths

/-- `needle` is a prefix of `haystack` (char lists). -/
def startsWithL : List Char → List Char → Bool
  | [], _ => true
  | _ :: _, [] => false
  | a :: as, b :: bs => a == b && startsWithL as bs

/-- Python's `needle in haystack` substring test, on char lists. -/
def containsSub (needle : List Char) : List Char → Bool
  | [] => startsWithL needle []
  | b :: bs => startsWithL needle (b :: bs) || containsSub needle bs

/-- The entity-matching predicate of `GraphRAG.query`: some token of the
lower-cased whitespace-split query text occurs as a substring of the
node's lower-cased name. -/
def queryTokenHit (query_tokens : List (List Char)) (node : GraphNode) : Bool :=
  query_tokens.any (fun token => containsSub token (lowerL node.name.toList))

/-- Ordered pairs `(l[i], l[j])` with `i < j`, as iterated by the nested
loop `for i, node1 in enumerate(ms): for node2 in ms[i+1:]`. -/
def pairsAfter {α : Type} : List α → List (α × α)
  | [] => []
  | x :: xs => xs.map (fun y => (x, y)) ++ pairsAfter xs

/-- Name of a registered node (`self.nodes[nid].name`; reachable states
always contain the key, so the default is never hit). -/
def GraphRAG.nodeName (g : GraphRAG) (nid : String) : String :=
  ((dictGet g.nodes nid).map (fun n => n.name)).getD ""

/-- `GraphRAG._create_subgraph_description`. -/
def GraphRAG.createSubgraphDescription (g : GraphRAG) (nodes : List GraphNode)
    (edges : List GraphEdge) (paths : List (List String)) : String :=
  let nodeParts : List String :=
    if nodes.isEmpty then []
    else ["Relevant entities: " ++ String.intercalate ", " (nodes.map (fun n => n.name))]
  let edgeParts : List String :=
    if edges.isEmpty then []
    else ["Relationships: " ++ String.intercalate "; "
      ((edges.take 5).map (fun e =>
        g.nodeName e.source_id ++ " " ++ e.relationship.value ++ " " ++ g.nodeName e.target_id))]
  let pathParts : List String :=
    if paths.isEmpty then []
    else ["Connection paths: " ++ String.intercalate "; "
      ((paths.take 3).map (fun path =>
        String.intercalate " → "
          ((path.filterMap (fun nid => dictGet g.nodes nid)).map (fun n => n.name))))]
  let parts := nodeParts ++ edgeParts ++ pathParts
  if parts.isEmpty then "No relevant context found" else String.intercalate ". " parts

/-- `GraphRAG.query`: naive entity matching, capped at `max_nodes`; then
for every matched pair `(node_i, node_j)` with `i < j` in match order,
collect up to 2 paths and (if present) the direct edge `node_i → node_j`. -/
def GraphRAG.query (g : GraphRAG) (query : String) (max_nodes : ℕ) : GraphContext :=
  let query_tokens := pyTokenize query
  let matching_nodes :=
    ((g.nodes.map (fun p => p.2)).filter (queryTokenHit query_tokens)).take max_nodes
  let pairs := pairsAfter matching_nodes
  let paths := pairs.flatMap (fun p => g.find_paths p.1.node_id p.2.node_id 2)
  let relevant_edges := pairs.filterMap (fun p =>
    (dictGet g.graph.edgeList (p.1.node_id, p.2.node_id)).map (fun attrs =>
      { source_id := p.1.node_id, target_id := p.2.node_id,
        relationship := attrs.relationship, weight := attrs.weight,
        metadata := [] : GraphEdge }))
  { nodes := matching_nodes, edges := relevant_edges, paths := paths,
    subgraph_description := g.createSubgraphDescription matching_nodes relevant_edges paths }

/- ### Specification-side definitions (used to state the claims) -/

/-- Sum of the RRF contributions `1/(k + rank)` of a document id over one
result list, ranks counted from `n`. -/
def rrfContributionFrom (k : ℤ) (id : String) (n : ℕ)
    (results : List (Document × ℚ)) : ℚ :=
  (((List.enumFrom n results).filter (fun p => p.2.1.doc_id = id)).map
    (fun p => 1 / ((k : ℚ) + (p.1 : ℚ)))).sum

/-- The RRF score the spec assigns to a document id: the sum over both
lists of `1/(k + rank)` at each 1-based position where the id occurs. -/
def rrfScore (k : ℤ) (id : String) (dense sparse : List (Document × ℚ)) : ℚ :=
  rrfContributionFrom k id 1 dense + rrfContributionFrom k id 1 sparse

/-- The graph has a directed edge from `u` to `v`. -/
def hasEdgeB (g : NxDiGraph) (u v : String) : Prop :=
  (dictGet g.edgeList (u, v)).isSome = true

instance hasEdgeBDec (g : NxDiGraph) : DecidableRel (hasEdgeB g) :=
  fun u v => inferInstanceAs (Decidable ((dictGet g.edgeList (u, v)).isSome = true))

/-- `p` is a directed path from `s` to `t` in `g`: nonempty, starts at
`s`, ends at `t`, consecutive nodes joined by edges of `g`. -/
def isPathFrom (g : NxDiGraph) (s t : String) (p : List String) : Prop :=
  p ≠ [] ∧ p.head? = some s ∧ p.getLast? = some t ∧ p.Chain' (hasEdgeB g)

/-- Well-formedness of the `GraphRAG` node dict: every stored node is
keyed by its own id (true of every state built via `add_node`). -/
def nodesWf (g : GraphRAG) : Prop := ∀ p ∈ g.nodes, p.2.node_id = p.1

instance nodesWfDec (g : GraphRAG) : Decidable (nodesWf g) :=
  inferInstanceAs (Decidable (∀ p ∈ g.nodes, p.2.node_id = p.1))

/- ### Concrete values for witnesses and counterexamples -/

def docA : Document := ⟨"content a", [], "A", 0, ""⟩

def docB : Document := ⟨"content b", [], "B", 0, ""⟩

def docC : Document := ⟨"content c", [], "C", 0, ""⟩

def docD : Document := ⟨"content d", [], "D", 0, ""⟩

/-- Dense ranking `[A, B, C]` from the spec's RRF worked example. -/
def denseEx : List (Document × ℚ) := [(docA, 0), (docB, 0), (docC, 0)]

/-- Sparse ranking `[B, A, D]` from the spec's RRF worked example. -/
def sparseEx : List (Document × ℚ) := [(docB, 0), (docA, 0), (docD, 0)]

def nodeAlpha : GraphNode := ⟨"a", "metric", "alpha", "", []⟩

def nodeBeta : GraphNode := ⟨"b", "metric", "beta", "", []⟩

def nodeGamma : GraphNode := ⟨"c", "metric", "gamma", "", []⟩

/-- Chain graph `a → b → c`. -/
def gChain : GraphRAG :=
  ((((GraphRAG.init.add_node nodeAlpha).add_node nodeBeta).add_node nodeGamma).add_edge
    ⟨"a", "b", .affects, 1, []⟩).add_edge ⟨"b", "c", .causes, 1, []⟩

/-- Two matched nodes with the only direct edge running from the
later-matched node to the earlier-matched one: `b → a`. -/
def gBack : GraphRAG :=
  ((GraphRAG.init.add_node nodeAlpha).add_node nodeBeta).add_edge
    ⟨"b", "a", .affects, 1, []⟩

/-- A one-document engine state (document score field is 0). -/
def engineEx : HybridSearchEngine :=
  HybridSearchEngine.initEngine.index_documents (fun _ => [1]) [docA]

/- ### Dict lemmas -/

theorem dictGet_dictInsert_self {κ ν : Type} [DecidableEq κ]
    (d : List (κ × ν)) (k : κ) (v : ν) :
    dictGet (dictInsert d k v) k = some v := by
  induction d with
  | nil => simp [dictInsert, dictGet]
  | cons p rest ih =>
    by_cases h : p.1 = k
    · simp [dictInsert, dictGet, h]
    · simp [dictInsert, dictGet, h, ih]

theorem dictGet_dictInsert_ne {κ ν : Type} [DecidableEq κ]
    (d : List (κ × ν)) (k k' : κ) (v : ν) (hne : k' ≠ k) :
    dictGet (dictInsert d k v) k' = dictGet d k' := by
  have hne' : ¬ (k = k') := fun h => hne h.symm
  induction d with
  | nil => simp [dictInsert, dictGet, hne']
  | cons p rest ih =>
    by_cases h : p.1 = k
    · simp [dictInsert, dictGet, h, hne']
    · by_cases h' : p.1 = k'
      · simp [dictInsert, dictGet, h, h', hne, hne']
      · simp [dictInsert, dictGet, h, h', ih]

theorem dictInsert_dictInsert_same {κ ν : Type} [DecidableEq κ]
    (d : List (κ × ν)) (k : κ) (v1 v2 : ν) :
    dictInsert (dictInsert d k v1) k v2 = dictInsert d k v2 := by
  induction d with
  | nil => simp [dictInsert]
  | cons p rest ih =>
    by_cases h : p.1 = k
    · simp [dictInsert, h]
    · simp [dictInsert, h, ih]

theorem length_dictInsert_congr {κ ν : Type} [DecidableEq κ]
    (d : List (κ × ν)) (k : κ) (v1 v2 : ν) :
    (dictInsert d k v1).length = (dictInsert d k v2).length := by
  induction d with
  | nil => simp [dictInsert]
  | cons p rest ih =>
    by_cases h : p.1 = k
    · simp [dictInsert, h]
    · simp [dictInsert, h, ih]

theorem mem_dictInsert {κ ν : Type} [DecidableEq κ]
    {d : List (κ × ν)} {k : κ} {v : ν} {p : κ × ν}
    (hp : p ∈ dictInsert d k v) : p ∈ d ∨ p = (k, v) := by
  induction d with
  | nil => simpa [dictInsert] using hp
  | cons q rest ih =>
    by_cases h : q.1 = k
    · simp only [dictInsert, h, if_pos rfl] at hp
      rcases List.mem_cons.1 hp with h1 | h1
      · exact Or.inr h1
      · exact Or.inl (List.mem_cons_of_mem _ h1)
    · simp only [dictInsert, h, if_neg h] at hp
      rcases List.mem_cons.1 hp with h1 | h1
      · exact Or.inl (h1 ▸ List.mem_cons_self _ _)
      · rcases ih h1 with h2 | h2
        · exact Or.inl (List.mem_cons_of_mem _ h2)
        · exact Or.inr h2

theorem length_dictInsert_of_get_some {κ ν : Type} [DecidableEq κ]
    {d : List (κ × ν)} {k : κ} {w : ν} (hk : dictGet d k = some w) (v : ν) :
    (dictInsert d k v).length = d.length := by
  induction d with
  | nil => simp [dictGet] at hk
  | cons p rest ih =>
    by_cases h : p.1 = k
    · simp [dictInsert, h]
    · simp only [dictGet, h, if_neg h] at hk
      simp [dictInsert, h, ih hk]

theorem dictGet_mem {κ ν : Type} [DecidableEq κ]
    {d : List (κ × ν)} {k : κ} {v : ν} (h : dictGet d k = some v) : (k, v) ∈ d := by
  induction d with
  | nil => simp [dictGet] at h
  | cons p rest ih =>
    obtain ⟨pk, pv⟩ := p
    by_cases hk : pk = k
    · subst hk
      simp only [dictGet, if_pos rfl] at h
      obtain rfl := Option.some.inj h
      exact List.mem_cons_self _ _
    · simp only [dictGet, if_neg hk] at h
      exact List.mem_cons_of_mem _ (ih h)

theorem find_node_values {g : GraphRAG} {name : String} {m : GraphNode}
    (h : g.find_node_by_name name = some m) : ∃ k, (k, m) ∈ g.nodes := by
  have hmem := List.mem_of_find?_eq_some h
  rcases List.mem_map.1 hmem with ⟨p, hp, hpe⟩
  refine ⟨p.1, ?_⟩
  rw [← hpe, Prod.mk.eta]
  exact hp

/- ### C10: add_node overwrite semantics -/

/-- **C10.** Calling `add_node` twice with the same `node_id` leaves the
graph storing the second node (last-wins): lookup by that id returns the
replacement, the node count does not grow, and `find_node_by_name` can no
longer resolve to the replaced node. -/
theorem C10_add_node_overwrites (g : GraphRAG) (n1 n2 : GraphNode)
    (hid : n1.node_id = n2.node_id) (hne : n1 ≠ n2)
    (hfresh : ∀ k, (k, n1) ∉ g.nodes) :
    dictGet ((g.add_node n1).add_node n2).nodes n2.node_id = some n2
    ∧ ((g.add_node n1).add_node n2).nodes.length = (g.add_node n1).nodes.length
    ∧ ∀ name, ((g.add_node n1).add_node n2).find_node_by_name name ≠ some n1 := by
  have hnodes : ((g.add_node n1).add_node n2).nodes = dictInsert g.nodes n2.node_id n2 := by
    show dictInsert (dictInsert g.nodes n1.node_id n1) n2.node_id n2 = _
    rw [← hid, dictInsert_dictInsert_same, hid]
  refine ⟨?_, ?_, ?_⟩
  · rw [hnodes]
    exact dictGet_dictInsert_self _ _ _
  · rw [hnodes]
    show _ = (dictInsert g.nodes n1.node_id n1).length
    rw [hid]
    exact length_dictInsert_congr _ _ _ _
  · intro name hcontra
    obtain ⟨k, hk⟩ := find_node_values hcontra
    rw [hnodes] at hk
    rcases mem_dictInsert hk with h1 | h1
    · exact hfresh k h1
    · exact hne (congrArg Prod.snd h1)

/-- Witness for C10 at a concrete graph. -/
theorem C10_add_node_overwrites_witness :
    let na : GraphNode := ⟨"x", "metric", "Alpha", "", []⟩
    let nb : GraphNode := ⟨"x", "metric", "Beta", "", []⟩
    dictGet ((GraphRAG.init.add_node na).add_node nb).nodes "x" = some nb
    ∧ ((GraphRAG.init.add_node na).add_node nb).nodes.length
        = (GraphRAG.init.add_node na).nodes.length := by
  intro na nb
  have h := C10_add_node_overwrites GraphRAG.init na nb rfl
    (by decide) (by intro k hk; simp [GraphRAG.init] at hk)
  exact ⟨h.1, h.2.1⟩

/- ### Sorting lemmas -/

theorem pairwise_insertionSort_descBySnd {α : Type} (l : List (α × ℚ)) :
    (List.insertionSort descBySnd l).Pairwise descBySnd := by
  haveI : IsTotal (α × ℚ) descBySnd := ⟨fun a b => le_total b.2 a.2⟩
  haveI : IsTrans (α × ℚ) descBySnd := ⟨fun a b c h1 h2 => le_trans h2 h1⟩
  exact List.sorted_insertionSort descBySnd l

theorem argsortRel_total (s : List ℚ) :
    ∀ i j, argsortRel s i j ∨ argsortRel s j i := by
  intro i j
  rcases lt_trichotomy (s.getD i 0) (s.getD j 0) with h | h | h
  · exact Or.inl (Or.inl h)
  · rcases Nat.le_total i j with hij | hij
    · exact Or.inl (Or.inr ⟨h, hij⟩)
    · exact Or.inr (Or.inr ⟨h.symm, hij⟩)
  · exact Or.inr (Or.inl h)

theorem argsortRel_trans (s : List ℚ) :
    ∀ i j l, argsortRel s i j → argsortRel s j l → argsortRel s i l := by
  intro i j l h1 h2
  rcases h1 with h1 | ⟨h1e, h1le⟩
  · rcases h2 with h2 | ⟨h2e, h2le⟩
    · exact Or.inl (h1.trans h2)
    · exact Or.inl (by rw [← h2e]; exact h1)
  · rcases h2 with h2 | ⟨h2e, h2le⟩
    · exact Or.inl (by rw [h1e]; exact h2)
    · exact Or.inr ⟨h1e.trans h2e, h1le.trans h2le⟩

theorem argsort_pairwise (scores : List ℚ) :
    (argsort scores).Pairwise (argsortRel scores) := by
  haveI : IsTotal ℕ (argsortRel scores) := ⟨argsortRel_total scores⟩
  haveI : IsTrans ℕ (argsortRel scores) := ⟨argsortRel_trans scores⟩
  exact List.sorted_insertionSort _ _

theorem argsort_perm (scores : List ℚ) :
    List.Perm (argsort scores) (List.range scores.length) :=
  List.perm_insertionSort _ _

theorem argsort_nodup (scores : List ℚ) : (argsort scores).Nodup :=
  ((argsort_perm scores).nodup_iff).2 (List.nodup_range _)

theorem argsort_mem {scores : List ℚ} {i : ℕ} (h : i ∈ argsort scores) :
    i < scores.length :=
  List.mem_range.1 ((argsort_perm scores).mem_iff.1 h)

theorem argsortDesc_mem {scores : List ℚ} {i : ℕ} (h : i ∈ argsortDesc scores) :
    i < scores.length :=
  argsort_mem (List.mem_reverse.1 h)

theorem argsortDesc_pairwise (scores : List ℚ) :
    (argsortDesc scores).Pairwise (fun i j =>
      scores.getD j 0 < scores.getD i 0
        ∨ (scores.getD i 0 = scores.getD j 0 ∧ j < i)) := by
  rw [argsortDesc, List.pairwise_reverse]
  have h1 := (argsort_pairwise scores).and (argsort_nodup scores)
  refine h1.imp ?_
  intro i j h
  rcases h with ⟨hrel, hne⟩
  rcases hrel with h | ⟨he, hle⟩
  · exact Or.inl h
  · exact Or.inr ⟨he.symm, lt_of_le_of_ne hle hne⟩

theorem getD_mem_of_lt {α : Type} [Inhabited α] {l : List α} {n : ℕ}
    (h : n < l.length) (d : α) : l.getD n d ∈ l := by
  rw [List.getD_eq_getElem?_getD, List.getElem?_eq_getElem h]
  exact List.getElem_mem _

/- ### C2: dense_search ordering -/

/-- **C2 counterexample.** Two documents with equal cosine similarity do
NOT appear in original corpus order: with similarities `[5, 5]`, the
document at corpus index 1 is returned first (the code reverses an
ascending argsort, so ties come out in reverse index order). -/
theorem C2_dense_search_counterexample :
    dense_search [docA, docB] [5, 5] 2 = [(docB, 5), (docA, 5)]
    ∧ [(docB, (5 : ℚ)), (docA, 5)] ≠ [(docA, 5), (docB, 5)] :=
  ⟨by decide, by decide⟩

/-- **C2 (amended).** `dense_search` returns the documents at the
`top_k` leading indices of the reversed ascending argsort of the
similarity array, paired with their similarity scores: at most `top_k`
results, sorted descending by score, and equal-similarity ties in
*reverse* corpus order (the index ordering of `argsortDesc`). -/
theorem C2_dense_search_amended (documents : List Document)
    (similarities : List ℚ) (top_k : ℕ) :
    dense_search documents similarities top_k
      = ((argsortDesc similarities).take top_k).map
          (fun idx => (documents.getD idx default, similarities.getD idx 0))
    ∧ (dense_search documents similarities top_k).length ≤ top_k
    ∧ (dense_search documents similarities top_k).Pairwise (fun a b => b.2 ≤ a.2)
    ∧ (argsortDesc similarities).Pairwise (fun i j =>
        similarities.getD j 0 < similarities.getD i 0
          ∨ (similarities.getD i 0 = similarities.getD j 0 ∧ j < i)) := by
  refine ⟨rfl, ?_, ?_, argsortDesc_pairwise similarities⟩
  · show (List.map _ _).length ≤ top_k
    rw [List.length_map]
    exact List.length_take_le _ _
  · have hpw := (argsortDesc_pairwise similarities).sublist (List.take_sublist top_k _)
    refine hpw.map _ ?_
    intro i j h
    rcases h with h | ⟨he, _⟩
    · exact le_of_lt h
    · exact le_of_eq he.symm

/- ### C4: sparse_search strict positivity -/

theorem sparse_search_mem {documents : List Document} {scores : List ℚ}
    {top_k : ℕ} {p : Document × ℚ}
    (hp : p ∈ sparse_search documents scores top_k) :
    ∃ idx, idx < scores.length ∧ 0 < scores.getD idx 0
      ∧ p = (documents.getD idx default, scores.getD idx 0) := by
  simp only [sparse_search] at hp
  have hp' := List.mem_of_mem_take hp
  rcases List.mem_filterMap.1 hp' with ⟨idx, hidx, heq⟩
  have hidx' : idx < scores.length := argsortDesc_mem (List.mem_of_mem_take hidx)
  by_cases hpos : 0 < scores.getD idx 0
  · rw [if_pos hpos] at heq
    exact ⟨idx, hidx', hpos, (Option.some.inj heq).symm⟩
  · rw [if_neg hpos] at heq
    cases heq

/-- **C4.** `sparse_search` returns only strictly positive BM25 scores,
at most `top_k` of them; a document all of whose corpus positions carry a
non-positive score (in particular one sharing no terms with the query)
never appears in the output. -/
theorem C4_sparse_search_positive (documents : List Document)
    (scores : List ℚ) (top_k : ℕ) (hlen : scores.length = documents.length) :
    (∀ p ∈ sparse_search documents scores top_k, 0 < p.2)
    ∧ (sparse_search documents scores top_k).length ≤ top_k
    ∧ ∀ d : Document,
        (∀ i, i < documents.length → documents.getD i default = d →
          scores.getD i 0 ≤ 0) →
        ∀ s, (d, s) ∉ sparse_search documents scores top_k := by
  refine ⟨?_, ?_, ?_⟩
  · intro p hp
    rcases sparse_search_mem hp with ⟨idx, _, hpos, hpe⟩
    rw [hpe]
    exact hpos
  · simp only [sparse_search]
    exact List.length_take_le _ _
  · intro d hd s hmem
    rcases sparse_search_mem hmem with ⟨idx, hidx, hpos, hpe⟩
    have hidx2 : idx < documents.length := hlen ▸ hidx
    have hde : documents.getD idx default = d := (congrArg Prod.fst hpe).symm
    exact absurd hpos (not_lt.2 (hd idx hidx2 hde))

/-- Witness for C4 at a concrete corpus: scores `[0, 3, -1]`. -/
theorem C4_sparse_search_positive_witness :
    ([(0 : ℚ), 3, -1].length = [docA, docB, docC].length)
    ∧ (∀ p ∈ sparse_search [docA, docB, docC] [0, 3, -1] 5, 0 < p.2)
    ∧ ∀ s : ℚ, (docA, s) ∉ sparse_search [docA, docB, docC] [0, 3, -1] 5 := by
  have h := C4_sparse_search_positive [docA, docB, docC] [0, 3, -1] 5 (by decide)
  refine ⟨by decide, h.1, ?_⟩
  intro s
  exact h.2.2 docA (by decide) s

/- ### C1: reciprocal rank fusion -/

theorem dictGetD_dictInsert (d : List (String × ℚ)) (k id : String) (v : ℚ) :
    dictGetD (dictInsert d k v) id 0 = if id = k then v else dictGetD d id 0 := by
  by_cases h : id = k
  · subst h
    rw [if_pos rfl]
    unfold dictGetD
    rw [dictGet_dictInsert_self]
    rfl
  · rw [if_neg h]
    unfold dictGetD
    rw [dictGet_dictInsert_ne _ _ _ _ h]

theorem dictGetD_rrfStep (k : ℤ) (acc : List (String × ℚ)) (n : ℕ)
    (x : Document × ℚ) (id : String) :
    dictGetD (rrfStep k acc (n, x)) id 0
      = if x.1.doc_id = id then dictGetD acc id 0 + 1 / ((k : ℚ) + (n : ℚ))
        else dictGetD acc id 0 := by
  unfold rrfStep
  rw [dictGetD_dictInsert]
  by_cases h : id = x.1.doc_id
  · rw [if_pos h, if_pos h.symm, h]
  · rw [if_neg h, if_neg (fun hh => h hh.symm)]

theorem rrfContributionFrom_nil (k : ℤ) (id : String) (n : ℕ) :
    rrfContributionFrom k id n [] = 0 := by
  simp [rrfContributionFrom]

theorem rrfContributionFrom_cons (k : ℤ) (id : String) (n : ℕ)
    (x : Document × ℚ) (xs : List (Document × ℚ)) :
    rrfContributionFrom k id n (x :: xs)
      = (if x.1.doc_id = id then 1 / ((k : ℚ) + (n : ℚ)) else 0)
        + rrfContributionFrom k id (n + 1) xs := by
  unfold rrfContributionFrom
  rw [List.enumFrom_cons, List.filter_cons]
  by_cases h : x.1.doc_id = id
  · simp [h]
  · simp [h]

theorem dictGetD_rrfFold (k : ℤ) (results : List (Document × ℚ)) :
    ∀ (n : ℕ) (acc : List (String × ℚ)) (id : String),
      dictGetD ((List.enumFrom n results).foldl (rrfStep k) acc) id 0
        = dictGetD acc id 0 + rrfContributionFrom k id n results := by
  induction results with
  | nil =>
    intro n acc id
    simp [rrfContributionFrom_nil]
  | cons x xs ih =>
    intro n acc id
    rw [List.enumFrom_cons, List.foldl_cons, ih (n + 1) (rrfStep k acc (n, x)) id,
      dictGetD_rrfStep, rrfContributionFrom_cons]
    by_cases h : x.1.doc_id = id
    · rw [if_pos h, if_pos h]
      ring
    · rw [if_neg h, if_neg h]
      ring

theorem dictGetD_rrfAdd (k : ℤ) (results : List (Document × ℚ))
    (acc : List (String × ℚ)) (id : String) :
    dictGetD (rrfAdd k results acc) id 0
      = dictGetD acc id 0 + rrfContributionFrom k id 1 results :=
  dictGetD_rrfFold k results 1 acc id

theorem keys_dictInsert_sub {κ ν : Type} [DecidableEq κ]
    (d : List (κ × ν)) (k : κ) (v : ν) :
    ∀ x ∈ (dictInsert d k v).map Prod.fst, x = k ∨ x ∈ d.map Prod.fst := by
  intro x hx
  rcases List.mem_map.1 hx with ⟨p, hp, he⟩
  rcases mem_dictInsert hp with h1 | h1
  · exact Or.inr (he ▸ List.mem_map_of_mem _ h1)
  · exact Or.inl (by rw [← he, h1])

theorem keysNodup_dictInsert {κ ν : Type} [DecidableEq κ]
    {d : List (κ × ν)} (hd : (d.map Prod.fst).Nodup) (k : κ) (v : ν) :
    ((dictInsert d k v).map Prod.fst).Nodup := by
  induction d with
  | nil => simp [dictInsert]
  | cons p rest ih =>
    rw [List.map_cons] at hd
    rcases List.nodup_cons.1 hd with ⟨hp1, hrest⟩
    by_cases h : p.1 = k
    · simp only [dictInsert, if_pos h, List.map_cons]
      exact List.nodup_cons.2 ⟨by rw [← h]; exact hp1, hrest⟩
    · simp only [dictInsert, if_neg h, List.map_cons]
      refine List.nodup_cons.2 ⟨?_, ih hrest⟩
      intro hc
      rcases keys_dictInsert_sub rest k v _ hc with h1 | h1
      · exact h h1
      · exact hp1 h1

theorem keysNodup_rrfFold (k : ℤ) (l : List (ℕ × (Document × ℚ))) :
    ∀ acc : List (String × ℚ), (acc.map Prod.fst).Nodup →
      ((l.foldl (rrfStep k) acc).map Prod.fst).Nodup := by
  induction l with
  | nil =>
    intro acc h
    exact h
  | cons x xs ih =>
    intro acc h
    rw [List.foldl_cons]
    exact ih _ (keysNodup_dictInsert h _ _)

theorem dictGet_of_mem_nodup {κ ν : Type} [DecidableEq κ]
    {d : List (κ × ν)} {k : κ} {v : ν}
    (hmem : (k, v) ∈ d) (hnd : (d.map Prod.fst).Nodup) : dictGet d k = some v := by
  induction d with
  | nil => cases hmem
  | cons p rest ih =>
    rw [List.map_cons] at hnd
    rcases List.nodup_cons.1 hnd with ⟨hp1, hrest⟩
    rcases List.mem_cons.1 hmem with h1 | h1
    · rw [← h1]
      simp [dictGet]
    · have hk : ¬ (p.1 = k) :=
        fun hc => hp1 (by rw [hc]; exact List.mem_map_of_mem Prod.fst h1)
      simp [dictGet, hk, ih h1 hrest]

theorem fold_dictInsert_pred {P : String × Document → Prop} :
    ∀ (l : List (Document × ℚ)) (acc : List (String × Document)),
      (∀ q ∈ acc, P q) → (∀ x ∈ l, P (x.1.doc_id, x.1)) →
      ∀ q ∈ l.foldl (fun d p => dictInsert d p.1.doc_id p.1) acc, P q := by
  intro l
  induction l with
  | nil =>
    intro acc hacc _ q hq
    exact hacc q hq
  | cons x xs ih =>
    intro acc hacc hl q hq
    rw [List.foldl_cons] at hq
    refine ih _ ?_ (fun y hy => hl y (List.mem_cons_of_mem _ hy)) q hq
    intro r hr
    rcases mem_dictInsert hr with h1 | h1
    · exact hacc r h1
    · rw [h1]
      exact hl x (List.mem_cons_self _ _)

theorem allDocs_spec (dense sparse : List (Document × ℚ)) :
    ∀ q ∈ (dense ++ sparse).foldl (fun d p => dictInsert d p.1.doc_id p.1) [],
      q.2.doc_id = q.1 ∧ q.2 ∈ (dense ++ sparse).map Prod.fst :=
  fold_dictInsert_pred _ [] (by intro q hq; cases hq)
    (fun x hx => ⟨rfl, List.mem_map_of_mem _ hx⟩)

/-- **C1.** Reciprocal rank fusion: every fused pair carries the score
`Σ 1/(k + rank)` summed over the 1-based positions where its id occurs in
the dense and the sparse list (accumulation keyed by id, both lists
contributing); the output is sorted descending by fused score; and on the
spec's worked example (`[A,B,C]` dense, `[B,A,D]` sparse, `k = 60`) the
result is `[A, B, C, D]` with scores `1/61+1/62, 1/62+1/61, 1/63, 1/63` —
A and B tied, both ahead of C and D, ties in stable original order. -/
theorem C1_rrf_correct (dense sparse : List (Document × ℚ)) (k : ℤ) (_hk : 0 ≤ k) :
    (∀ p ∈ HybridSearchEngine.reciprocal_rank_fusion dense sparse k,
        p.2 = rrfScore k p.1.doc_id dense sparse)
    ∧ (HybridSearchEngine.reciprocal_rank_fusion dense sparse k).Pairwise descBySnd
    ∧ HybridSearchEngine.reciprocal_rank_fusion denseEx sparseEx 60
        = [(docA, 1/61 + 1/62), (docB, 1/62 + 1/61), (docC, 1/63), (docD, 1/63)] := by
  refine ⟨?_, ?_, by decide⟩
  · intro p hp
    simp only [HybridSearchEngine.reciprocal_rank_fusion] at hp
    rcases List.mem_filterMap.1 hp with ⟨q, hq, heq⟩
    rcases Option.map_eq_some'.1 heq with ⟨doc, hdoc, hpe⟩
    have hq2 : q ∈ rrfAdd k sparse (rrfAdd k dense []) :=
      (List.perm_insertionSort descBySnd _).mem_iff.1 hq
    have hnd : ((rrfAdd k sparse (rrfAdd k dense [])).map Prod.fst).Nodup := by
      unfold rrfAdd
      exact keysNodup_rrfFold k _ _ (keysNodup_rrfFold k _ [] (by simp))
    obtain ⟨qk, qv⟩ := q
    have hget : dictGet (rrfAdd k sparse (rrfAdd k dense [])) qk = some qv :=
      dictGet_of_mem_nodup hq2 hnd
    have hscore : qv = rrfScore k qk dense sparse := by
      have h1 : dictGetD (rrfAdd k sparse (rrfAdd k dense [])) qk 0 = qv := by
        unfold dictGetD
        rw [hget]
        rfl
      rw [← h1, dictGetD_rrfAdd, dictGetD_rrfAdd, rrfScore]
      have h0 : dictGetD ([] : List (String × ℚ)) qk 0 = 0 := rfl
      rw [h0]
      ring
    have hdoc_mem := allDocs_spec dense sparse _ (dictGet_mem hdoc)
    rw [← hpe]
    show qv = rrfScore k doc.doc_id dense sparse
    rw [show doc.doc_id = qk from hdoc_mem.1]
    exact hscore
  · simp only [HybridSearchEngine.reciprocal_rank_fusion]
    refine List.Pairwise.filterMap _ ?_ (pairwise_insertionSort_descBySnd _)
    intro a b hab x hx y hy
    rcases Option.map_eq_some'.1 hx with ⟨da, _, hxa⟩
    rcases Option.map_eq_some'.1 hy with ⟨db, _, hyb⟩
    show y.2 ≤ x.2
    rw [← hxa, ← hyb]
    exact hab

/-- Witness for C1 at the spec's worked example. -/
theorem C1_rrf_correct_witness :
    (0 : ℤ) ≤ 60
    ∧ (docA, (1 : ℚ)/61 + 1/62).2
        = rrfScore 60 (docA, (1 : ℚ)/61 + 1/62).1.doc_id denseEx sparseEx := by
  refine ⟨by decide, ?_⟩
  exact (C1_rrf_correct denseEx sparseEx 60 (by decide)).1 (docA, 1/61 + 1/62) (by decide)

/- ### C3: rerank -/

theorem zip_self_map {α β : Type} (l : List α) (g : α → β) :
    l.zip (l.map g) = l.map (fun a => (a, g a)) := by
  induction l with
  | nil => rfl
  | cons x xs ih => simp [ih]

theorem rerank_eq (predict : String → String → ℚ) (query : String)
    (candidates : List (Document × ℚ)) (top_k : ℕ) :
    HybridSearchEngine.rerank predict query candidates top_k
      = (List.insertionSort descBySnd
          (candidates.map (fun p => (p.1, predict query p.1.content)))).take top_k := by
  simp only [HybridSearchEngine.rerank, List.map_map, Function.comp, zip_self_map]
  rfl

/-- **C3.** `rerank` scores each candidate with the injected pairwise
`(query, content)` scorer, re-sorts purely by this new score descending
(stably), and returns exactly the first `top_k`; the incoming fusion
scores have no influence (two candidate lists with the same documents in
the same order yield identical output). -/
theorem C3_rerank_correct (predict : String → String → ℚ) (query : String)
    (c c' : List (Document × ℚ)) (top_k : ℕ)
    (hdocs : c.map Prod.fst = c'.map Prod.fst) :
    HybridSearchEngine.rerank predict query c top_k
      = (List.insertionSort descBySnd
          (c.map (fun p => (p.1, predict query p.1.content)))).take top_k
    ∧ HybridSearchEngine.rerank predict query c top_k
        = HybridSearchEngine.rerank predict query c' top_k
    ∧ (HybridSearchEngine.rerank predict query c top_k).Pairwise descBySnd
    ∧ (HybridSearchEngine.rerank predict query c top_k).length = min top_k c.length := by
  have h1 : ∀ l : List (Document × ℚ),
      l.map (fun p => (p.1, predict query p.1.content))
        = (l.map Prod.fst).map (fun d => (d, predict query d.content)) := by
    intro l
    rw [List.map_map]
    rfl
  have hmap : c.map (fun p => (p.1, predict query p.1.content))
      = c'.map (fun p => (p.1, predict query p.1.content)) := by
    rw [h1, h1, hdocs]
  refine ⟨rerank_eq predict query c top_k, ?_, ?_, ?_⟩
  · rw [rerank_eq, rerank_eq, hmap]
  · rw [rerank_eq]
    exact List.Pairwise.sublist (List.take_sublist _ _) (pairwise_insertionSort_descBySnd _)
  · rw [rerank_eq, List.length_take, List.length_insertionSort, List.length_map]

/-- Witness for C3: fusion order and scorer order deliberately inverted —
the output follows the scorer's order, not the fusion order, and is
unchanged when the fusion scores are replaced. -/
theorem C3_rerank_correct_witness :
    ([(docA, (100 : ℚ)), (docB, 1)].map Prod.fst
        = [(docA, (0 : ℚ)), (docB, 7)].map Prod.fst)
    ∧ HybridSearchEngine.rerank
        (fun _ content => if content = "content b" then 2 else 1) "q"
        [(docA, 100), (docB, 1)] 2
      = HybridSearchEngine.rerank
        (fun _ content => if content = "content b" then 2 else 1) "q"
        [(docA, 0), (docB, 7)] 2
    ∧ HybridSearchEngine.rerank
        (fun _ content => if content = "content b" then 2 else 1) "q"
        [(docA, 100), (docB, 1)] 2 = [(docB, 2), (docA, 1)] := by
  refine ⟨by decide, ?_, by decide⟩
  exact (C3_rerank_correct _ "q" _ _ 2 (by decide)).2.1

/- ### C8: not-indexed error -/

/-- **C8.** `dense_search` and `sparse_search` fail with the not-indexed
error exactly when called before any corpus has been indexed (surfaced to
the caller — the model returns the error value, it is not retried or
swallowed); after `index_documents` both operations succeed. -/
theorem C8_not_indexed_error (sim : List (List ℚ) → String → List ℚ)
    (getScores : List (List (List Char)) → List (List Char) → List ℚ)
    (encode : String → List ℚ) (e : HybridSearchEngine)
    (docs : List Document) (query : String) (top_k : ℕ) :
    HybridSearchEngine.initEngine.dense_search_checked sim query top_k
        = .error .notIndexed
    ∧ HybridSearchEngine.initEngine.sparse_search_checked getScores query top_k
        = .error .notIndexed
    ∧ (e.embeddings = none →
        e.dense_search_checked sim query top_k = .error .notIndexed)
    ∧ (e.bm25 = none →
        e.sparse_search_checked getScores query top_k = .error .notIndexed)
    ∧ (∃ r, (e.index_documents encode docs).dense_search_checked sim query top_k
        = .ok r)
    ∧ (∃ r, (e.index_documents encode docs).sparse_search_checked getScores query top_k
        = .ok r) := by
  refine ⟨rfl, rfl, ?_, ?_, ⟨_, rfl⟩, ⟨_, rfl⟩⟩
  · intro h
    simp only [HybridSearchEngine.dense_search_checked, h]
  · intro h
    simp only [HybridSearchEngine.sparse_search_checked, h]

/-- Witness for C8 on the fresh engine. -/
theorem C8_not_indexed_error_witness :
    HybridSearchEngine.initEngine.embeddings = none
    ∧ HybridSearchEngine.initEngine.dense_search_checked
        (fun _ _ => []) "q" 5 = .error .notIndexed := by
  refine ⟨rfl, ?_⟩
  exact (C8_not_indexed_error (fun _ _ => []) (fun _ _ => []) (fun _ => [])
    HybridSearchEngine.initEngine [] "q" 5).2.2.1 rfl

/- ### C9: retrieval does not mutate documents -/

theorem dense_search_doc_mem {documents : List Document} {similarities : List ℚ}
    {top_k : ℕ} (hlen : similarities.length = documents.length) :
    ∀ p ∈ dense_search documents similarities top_k, p.1 ∈ documents := by
  intro p hp
  rcases List.mem_map.1 hp with ⟨idx, hidx, he⟩
  have h1 : idx < documents.length :=
    hlen ▸ argsortDesc_mem (List.mem_of_mem_take hidx)
  rw [← he]
  exact getD_mem_of_lt h1 _

theorem sparse_search_doc_mem {documents : List Document} {scores : List ℚ}
    {top_k : ℕ} (hlen : scores.length = documents.length) :
    ∀ p ∈ sparse_search documents scores top_k, p.1 ∈ documents := by
  intro p hp
  rcases sparse_search_mem hp with ⟨idx, hidx, _, hpe⟩
  rw [hpe]
  exact getD_mem_of_lt (hlen ▸ hidx) _

theorem rrf_doc_mem (dense sparse : List (Document × ℚ)) (k : ℤ) :
    ∀ p ∈ HybridSearchEngine.reciprocal_rank_fusion dense sparse k,
      p.1 ∈ (dense ++ sparse).map Prod.fst := by
  intro p hp
  simp only [HybridSearchEngine.reciprocal_rank_fusion] at hp
  rcases List.mem_filterMap.1 hp with ⟨q, _, heq⟩
  rcases Option.map_eq_some'.1 heq with ⟨doc, hdoc, hpe⟩
  have h := allDocs_spec dense sparse _ (dictGet_mem hdoc)
  rw [← hpe]
  exact h.2

theorem rerank_doc_mem (predict : String → String → ℚ) (query : String)
    (candidates : List (Document × ℚ)) (top_k : ℕ) :
    ∀ p ∈ HybridSearchEngine.rerank predict query candidates top_k,
      p.1 ∈ candidates.map Prod.fst := by
  intro p hp
  rw [rerank_eq] at hp
  have hp2 := List.mem_of_mem_take hp
  have hp3 := (List.perm_insertionSort descBySnd _).mem_iff.1 hp2
  rcases List.mem_map.1 hp3 with ⟨q, hq, he⟩
  rw [← he]
  simpa using List.mem_map_of_mem Prod.fst hq

/-- **C9 (amended).** Retrieval does not mutate documents: every document
returned by `dense_search` or by the full pipeline is one of the stored
corpus documents, unchanged — content, id, and in particular the `score`
field keep their stored values; the relevance scores live only in the
returned tuples and score lists. -/
theorem C9_retrieval_preserves_documents
    (sim : List (List ℚ) → String → List ℚ)
    (getScores : List (List (List Char)) → List (List Char) → List ℚ)
    (predict : String → String → ℚ) (e : HybridSearchEngine) (query : String)
    (top_k tkd tks tkf : ℕ)
    (hsim : ∀ embs q, (sim embs q).length = e.documents.length)
    (hsc : ∀ corpus q, (getScores corpus q).length = e.documents.length) :
    (∀ r, e.dense_search_checked sim query top_k = .ok r →
        ∀ p ∈ r, p.1 ∈ e.documents)
    ∧ (∀ res, e.advanced_rag_pipeline sim getScores predict query tkd tks tkf = .ok res →
        ∀ d ∈ res.documents, d ∈ e.documents) := by
  constructor
  · intro r hr p hp
    cases he : e.embeddings with
    | none =>
      simp only [HybridSearchEngine.dense_search_checked, he] at hr
      exact Except.noConfusion hr
    | some embs =>
      simp only [HybridSearchEngine.dense_search_checked, he] at hr
      obtain rfl : dense_search e.documents (sim embs query) top_k = r :=
        Except.ok.inj hr
      exact dense_search_doc_mem (hsim embs query) p hp
  · intro res hres d hd
    cases he : e.embeddings with
    | none =>
      simp only [HybridSearchEngine.advanced_rag_pipeline,
        HybridSearchEngine.dense_search_checked, he] at hres
      exact Except.noConfusion hres
    | some embs =>
      cases hb : e.bm25 with
      | none =>
        simp only [HybridSearchEngine.advanced_rag_pipeline,
          HybridSearchEngine.dense_search_checked,
          HybridSearchEngine.sparse_search_checked, he, hb] at hres
        exact Except.noConfusion hres
      | some corpus =>
        simp only [HybridSearchEngine.advanced_rag_pipeline,
          HybridSearchEngine.dense_search_checked,
          HybridSearchEngine.sparse_search_checked, he, hb] at hres
        obtain rfl := Except.ok.inj hres
        simp only at hd
        rcases List.mem_map.1 hd with ⟨p, hp, hpd⟩
        have h1 := rerank_doc_mem predict query _ tkf p hp
        rcases List.mem_map.1 h1 with ⟨q, hq, hqp⟩
        have h2 := rrf_doc_mem _ _ 60 q hq
        rcases List.mem_map.1 h2 with ⟨w, hw, hwq⟩
        have hwmem : w.1 ∈ e.documents := by
          rcases List.mem_append.1 hw with hw1 | hw1
          · exact dense_search_doc_mem (hsim embs query) w hw1
          · exact sparse_search_doc_mem (hsc corpus (pyTokenize query)) w hw1
        rw [← hpd, ← hqp, ← hwq]
        exact hwmem

/-- Witness for C9's amended theorem on a concrete one-document engine. -/
theorem C9_retrieval_preserves_documents_witness :
    engineEx.dense_search_checked (fun _ _ => [1]) "q" 10 = .ok [(docA, 1)]
    ∧ ∀ p ∈ [(docA, (1 : ℚ))], p.1 ∈ engineEx.documents := by
  have h := (C9_retrieval_preserves_documents (fun _ _ => [1]) (fun _ _ => [1])
    (fun _ _ => 1) engineEx "q" 10 1 1 1
    (fun _ _ => rfl) (fun _ _ => rfl)).1
  have hok : engineEx.dense_search_checked (fun _ _ => [1]) "q" 10 = .ok [(docA, 1)] := by
    rfl
  exact ⟨hok, h [(docA, 1)] hok⟩

/-- **C9 counterexample.** After indexing one document whose `score` field
is 0, `dense_search` assigns relevance score 1 to it in the returned
tuple, yet the document record still carries score 0: the `score` field
is not overwritten by the retrieval call. -/
theorem C9_score_not_overwritten_counterexample :
    engineEx.dense_search_checked (fun _ _ => [1]) "q" 10 = .ok [(docA, 1)]
    ∧ engineEx.documents = [docA]
    ∧ docA.score = 0
    ∧ (0 : ℚ) ≠ 1 := by
  refine ⟨rfl, rfl, rfl, by decide⟩

/- ### C5: BFS related nodes -/

theorem bfsVisit_fold_fst_mono (rt : Option RelationshipType) :
    ∀ (l : List (String × EdgeAttrs)) (st : List String × List String),
      ∀ x ∈ st.1, x ∈ (l.foldl (bfsVisit rt) st).1 := by
  intro l
  induction l with
  | nil =>
    intro st x hx
    exact hx
  | cons p ps ih =>
    intro st x hx
    rw [List.foldl_cons]
    refine ih _ x ?_
    unfold bfsVisit
    by_cases h1 : p.1 ∈ st.1
    · rw [if_pos h1]
      exact hx
    · rw [if_neg h1]
      by_cases h2 : rtMismatch rt p.2.relationship = true
      · rw [if_pos h2]
        exact hx
      · rw [if_neg h2]
        exact List.mem_append_left _ hx

theorem bfsVisit_fold_snd (rt : Option RelationshipType) :
    ∀ (l : List (String × EdgeAttrs)) (st : List String × List String) (x : String),
      x ∈ (l.foldl (bfsVisit rt) st).2 → x ∈ st.2 ∨ x ∉ st.1 := by
  intro l
  induction l with
  | nil =>
    intro st x hx
    exact Or.inl hx
  | cons p ps ih =>
    intro st x hx
    rw [List.foldl_cons] at hx
    have h := ih _ x hx
    unfold bfsVisit at h
    by_cases h1 : p.1 ∈ st.1
    · rw [if_pos h1] at h
      exact h
    · rw [if_neg h1] at h
      by_cases h2 : rtMismatch rt p.2.relationship = true
      · rw [if_pos h2] at h
        exact h
      · rw [if_neg h2] at h
        rcases h with h | h
        · rcases List.mem_append.1 h with h3 | h3
          · exact Or.inl h3
          · have hxp : x = p.1 := by simpa using h3
            exact Or.inr (hxp ▸ h1)
        · exact Or.inr (fun hc => h (List.mem_append_left _ hc))

theorem bfsLayer_visited_mono (g : NxDiGraph) (rt : Option RelationshipType) :
    ∀ (frontier : List String) (st : List String × List String),
      ∀ x ∈ st.1, x ∈ (frontier.foldl (fun st cur => bfsExpand g rt cur st) st).1 := by
  intro frontier
  induction frontier with
  | nil =>
    intro st x hx
    exact hx
  | cons c cs ih =>
    intro st x hx
    rw [List.foldl_cons]
    exact ih _ x (bfsVisit_fold_fst_mono rt _ st x hx)

theorem bfsLayer_snd_inv (g : NxDiGraph) (rt : Option RelationshipType) :
    ∀ (frontier : List String) (st : List String × List String) (x : String),
      x ∈ (frontier.foldl (fun st cur => bfsExpand g rt cur st) st).2 →
        x ∈ st.2 ∨ x ∉ st.1 := by
  intro frontier
  induction frontier with
  | nil =>
    intro st x hx
    exact Or.inl hx
  | cons c cs ih =>
    intro st x hx
    rw [List.foldl_cons] at hx
    rcases ih _ x hx with h | h
    · exact bfsVisit_fold_snd rt _ st x h
    · exact Or.inr (fun hc => h (bfsVisit_fold_fst_mono rt _ st x hc))

theorem bfsRun_not_mem (g : NxDiGraph) (rt : Option RelationshipType) :
    ∀ (d : ℕ) (frontier visited related : List String) (x : String),
      x ∈ visited → x ∉ related → x ∉ bfsRun g rt d frontier visited related := by
  intro d
  induction d with
  | zero =>
    intro frontier visited related x _ hrel
    exact hrel
  | succ d ih =>
    intro frontier visited related x hvis hrel
    simp only [bfsRun]
    refine ih _ _ _ x ?_ ?_
    · exact bfsLayer_visited_mono g rt frontier (visited, []) x hvis
    · intro hc
      rcases List.mem_append.1 hc with h1 | h1
      · exact hrel h1
      · rcases bfsLayer_snd_inv g rt frontier (visited, []) x h1 with h2 | h2
        · cases h2
        · exact h2 hvis

theorem bfsVisit_fold_none_mem :
    ∀ (l : List (String × EdgeAttrs)) (st : List String × List String) (x : String),
      (x ∈ (l.foldl (bfsVisit none) st).2
          ↔ x ∈ st.2 ∨ (x ∈ l.map Prod.fst ∧ x ∉ st.1))
      ∧ (x ∈ (l.foldl (bfsVisit none) st).1
          ↔ x ∈ st.1 ∨ x ∈ l.map Prod.fst) := by
  intro l
  induction l with
  | nil =>
    intro st x
    constructor <;> simp
  | cons p ps ih =>
    intro st x
    rw [List.foldl_cons]
    unfold bfsVisit
    have hrt : ¬ (rtMismatch none p.2.relationship = true) := by
      simp [rtMismatch]
    by_cases h1 : p.1 ∈ st.1
    · rw [if_pos h1]
      constructor
      · refine Iff.trans (ih st x).1 ?_
        rw [List.map_cons]
        by_cases hx : x = p.1
        · subst hx
          simp [h1]
        · simp [hx]
      · refine Iff.trans (ih st x).2 ?_
        rw [List.map_cons]
        by_cases hx : x = p.1
        · subst hx
          simp [h1]
        · simp [hx]
    · rw [if_neg h1, if_neg hrt]
      constructor
      · refine Iff.trans (ih _ x).1 ?_
        rw [List.map_cons]
        by_cases hx : x = p.1
        · subst hx
          simp [h1, List.mem_append]
        · simp [hx, List.mem_append]
      · refine Iff.trans (ih _ x).2 ?_
        rw [List.map_cons]
        by_cases hx : x = p.1
        · subst hx
          simp [List.mem_append]
        · simp [hx, List.mem_append]

theorem bfsLayer_none_single (g : NxDiGraph) (n x : String) :
    x ∈ (bfsLayer g none [n] [n]).2 ↔ x ∈ g.outNeighbors n ∧ x ≠ n := by
  have h := (bfsVisit_fold_none_mem (g.adj n) ([n], []) x).1
  refine Iff.trans h ?_
  simp [NxDiGraph.outNeighbors]

theorem bfsRun_one (g : NxDiGraph) (rt : Option RelationshipType) (n : String) :
    bfsRun g rt 1 [n] [n] [] = (bfsLayer g rt [n] [n]).2 := rfl

/-- **C5.** `find_related_nodes` never returns the origin node (for every
depth and relationship filter), and at `max_depth = 1` with no filter it
returns exactly the registered direct out-neighbors of the node,
excluding the node itself — independent of the graph beyond depth 1,
since `outNeighbors` only reads the direct out-edges. -/
theorem C5_find_related_nodes (g : GraphRAG) (node_id : String)
    (hwf : nodesWf g) (hn : node_id ∈ g.graph.nodeList) :
    (∀ (rt : Option RelationshipType) (d : ℕ),
        ∀ m ∈ g.find_related_nodes node_id rt d, m.node_id ≠ node_id)
    ∧ (∀ m : GraphNode,
        m ∈ g.find_related_nodes node_id none 1
          ↔ dictGet g.nodes m.node_id = some m
            ∧ m.node_id ∈ g.graph.outNeighbors node_id ∧ m.node_id ≠ node_id) := by
  constructor
  · intro rt d m hm
    unfold GraphRAG.find_related_nodes at hm
    rw [if_pos hn] at hm
    rcases List.mem_filterMap.1 hm with ⟨nid, hnid, hget⟩
    have hid : m.node_id = nid := hwf (nid, m) (dictGet_mem hget)
    intro hc
    have hnotin := bfsRun_not_mem g.graph rt d [node_id] [node_id] [] node_id
      (List.mem_singleton_self _) (List.not_mem_nil _)
    rw [hid] at hc
    rw [hc] at hnid
    exact hnotin hnid
  · intro m
    unfold GraphRAG.find_related_nodes
    rw [if_pos hn]
    constructor
    · intro hm
      rcases List.mem_filterMap.1 hm with ⟨nid, hnid, hget⟩
      have hid : m.node_id = nid := hwf (nid, m) (dictGet_mem hget)
      rw [bfsRun_one] at hnid
      rw [← hid] at hnid hget
      have h2 := (bfsLayer_none_single g.graph node_id m.node_id).1 hnid
      exact ⟨hget, h2.1, h2.2⟩
    · intro hm
      rcases hm with ⟨hget, hout, hne⟩
      refine List.mem_filterMap.2 ⟨m.node_id, ?_, hget⟩
      rw [bfsRun_one]
      exact (bfsLayer_none_single g.graph node_id m.node_id).2 ⟨hout, hne⟩

/-- Witness for C5 on the chain graph `a → b → c`. -/
theorem C5_find_related_nodes_witness :
    nodeBeta ∈ gChain.find_related_nodes "a" none 1
    ∧ ∀ m ∈ gChain.find_related_nodes "a" none 1, m.node_id ≠ "a" := by
  have h := C5_find_related_nodes gChain "a" (by decide) (by decide)
  refine ⟨?_, fun m hm => h.1 none 1 m hm⟩
  exact (h.2 nodeBeta).2 ⟨by decide, by decide, by decide⟩

/- ### C6: find_paths -/

theorem dictGet_isSome_of_mem {κ ν : Type} [DecidableEq κ]
    {d : List (κ × ν)} {k : κ} {v : ν} (h : (k, v) ∈ d) :
    (dictGet d k).isSome = true := by
  induction d with
  | nil => cases h
  | cons p rest ih =>
    by_cases hp : p.1 = k
    · simp [dictGet, hp]
    · rcases List.mem_cons.1 h with h1 | h1
      · rw [← h1] at hp
        simp at hp
      · simp [dictGet, hp, ih h1]

theorem mem_outNeighbors_iff (g : NxDiGraph) (u x : String) :
    x ∈ g.outNeighbors u ↔ ∃ attrs, ((u, x), attrs) ∈ g.edgeList := by
  unfold NxDiGraph.outNeighbors NxDiGraph.adj
  rw [List.map_map]
  constructor
  · intro h
    rcases List.mem_map.1 h with ⟨e, he, hex⟩
    obtain ⟨⟨eu, ev⟩, attrs⟩ := e
    rcases List.mem_filter.1 he with ⟨hmem, hcond⟩
    have h1 : eu = u := by simpa using hcond
    have h2 : ev = x := by simpa using hex
    subst h1
    subst h2
    exact ⟨attrs, hmem⟩
  · rintro ⟨attrs, hmem⟩
    refine List.mem_map.2 ⟨((u, x), attrs), List.mem_filter.2 ⟨hmem, by simp⟩, rfl⟩

theorem outNeighbor_hasEdge {g : NxDiGraph} {u x : String} :
    x ∈ g.outNeighbors u ↔ hasEdgeB g u x := by
  rw [mem_outNeighbors_iff]
  constructor
  · rintro ⟨attrs, h⟩
    exact dictGet_isSome_of_mem h
  · intro h
    rcases Option.isSome_iff_exists.1 h with ⟨attrs, hget⟩
    exact ⟨attrs, dictGet_mem hget⟩

theorem getLast?_cons_of_ne_nil {α : Type} {l : List α} (h : l ≠ []) (a : α) :
    (a :: l).getLast? = l.getLast? := by
  rcases List.exists_cons_of_ne_nil h with ⟨y, ys, hys⟩
  subst hys
  exact List.getLast?_cons_cons

theorem simplePathsFrom_sound (g : NxDiGraph) (target : String) :
    ∀ (c : ℕ) (current : String) (visited : List String) (q : List String),
      q ∈ simplePathsFrom g target c current visited →
      q ≠ [] ∧ q.getLast? = some target ∧ List.Chain' (hasEdgeB g) (current :: q)
        ∧ q.length ≤ c ∧ q.Nodup ∧ ∀ x ∈ q, x ∉ visited := by
  intro c
  induction c with
  | zero =>
    intro current visited q hq
    simp [simplePathsFrom] at hq
  | succ c ih =>
    intro current visited q hq
    simp only [simplePathsFrom] at hq
    rcases List.mem_flatMap.1 hq with ⟨nb, hnb, hbr⟩
    by_cases h1 : nb ∈ visited
    · rw [if_pos h1] at hbr
      cases hbr
    · rw [if_neg h1] at hbr
      by_cases h2 : nb = target
      · rw [if_pos h2] at hbr
        have hq2 : q = [nb] := by simpa using hbr
        subst hq2
        refine ⟨by simp, by simp [h2], ?_, by simp, by simp, ?_⟩
        · rw [List.chain'_pair]
          exact outNeighbor_hasEdge.1 hnb
        · intro x hx
          have hxnb : x = nb := by simpa using hx
          subst hxnb
          exact h1
      · rw [if_neg h2] at hbr
        rcases List.mem_map.1 hbr with ⟨suffix, hsfx, hqe⟩
        obtain ⟨hne, hlast, hchain, hlen, hnodup, hnotvis⟩ :=
          ih nb (visited ++ [nb]) suffix hsfx
        rw [← hqe]
        refine ⟨by simp, ?_, ?_, ?_, ?_, ?_⟩
        · rw [getLast?_cons_of_ne_nil hne]
          exact hlast
        · rw [List.chain'_cons]
          exact ⟨outNeighbor_hasEdge.1 hnb, hchain⟩
        · simpa using Nat.succ_le_succ hlen
        · refine List.nodup_cons.2 ⟨?_, hnodup⟩
          intro hc
          exact hnotvis nb hc (List.mem_append_right _ (List.mem_singleton_self _))
        · intro x hx
          rcases List.mem_cons.1 hx with h3 | h3
          · subst h3
            exact h1
          · intro hc
            exact hnotvis x h3 (List.mem_append_left _ hc)

theorem all_simple_paths_sound (g : NxDiGraph) (s t : String) :
    ∀ q ∈ all_simple_paths g s t 4,
      isPathFrom g s t q ∧ q.Nodup ∧ q.length ≤ 5 := by
  intro q hq
  unfold all_simple_paths at hq
  by_cases hst : s = t
  · rw [if_pos hst] at hq
    have hq2 : q = [s] := by simpa using hq
    subst hq2
    exact ⟨⟨by simp, by simp, by simp [hst], by simp⟩, by simp, by simp⟩
  · rw [if_neg hst] at hq
    rcases List.mem_map.1 hq with ⟨suffix, hsfx, hqe⟩
    obtain ⟨hne, hlast, hchain, hlen, hnodup, hnotvis⟩ :=
      simplePathsFrom_sound g t 4 s [s] suffix hsfx
    rw [← hqe]
    refine ⟨⟨by simp, by simp, ?_, hchain⟩, ?_, ?_⟩
    · rw [getLast?_cons_of_ne_nil hne]
      exact hlast
    · refine List.nodup_cons.2 ⟨?_, hnodup⟩
      intro hc
      exact hnotvis s hc (List.mem_singleton_self _)
    · simpa using Nat.succ_le_succ hlen

theorem simplePathsFrom_complete (g : NxDiGraph) (target : String) :
    ∀ (q : List String) (c : ℕ) (current : String) (visited : List String),
      q ≠ [] → q.getLast? = some target → List.Chain' (hasEdgeB g) (current :: q) →
      q.length ≤ c → q.Nodup → (∀ x ∈ q, x ∉ visited) →
      q ∈ simplePathsFrom g target c current visited := by
  intro q
  induction q with
  | nil =>
    intro c current visited hne
    exact absurd rfl hne
  | cons nb rest ih =>
    intro c current visited _ hlast hchain hlen hnodup hnvis
    rcases c with _ | c
    · simp at hlen
    · simp only [simplePathsFrom]
      refine List.mem_flatMap.2 ⟨nb, ?_, ?_⟩
      · exact outNeighbor_hasEdge.2 (List.chain'_cons.1 hchain).1
      · have hnb_nvis : nb ∉ visited := hnvis nb (List.mem_cons_self _ _)
        rw [if_neg hnb_nvis]
        by_cases h2 : nb = target
        · have hrest : rest = [] := by
            by_contra hr
            have h3 : rest.getLast? = some target := by
              rw [← getLast?_cons_of_ne_nil hr nb]
              exact hlast
            have h4 : target ∈ rest := List.mem_of_getLast?_eq_some h3
            have h5 := (List.nodup_cons.1 hnodup).1
            rw [h2] at h5
            exact h5 h4
          rw [if_pos h2, hrest]
          simp
        · rw [if_neg h2]
          have hrest_ne : rest ≠ [] := by
            intro hr
            rw [hr] at hlast
            simp at hlast
            exact h2 hlast
          refine List.mem_map.2 ⟨rest, ?_, rfl⟩
          refine ih c nb (visited ++ [nb]) hrest_ne ?_ ?_ ?_ ?_ ?_
          · rw [← getLast?_cons_of_ne_nil hrest_ne nb]
            exact hlast
          · exact (List.chain'_cons.1 hchain).2
          · have hlen2 : rest.length + 1 ≤ c + 1 := by simpa using hlen
            omega
          · exact (List.nodup_cons.1 hnodup).2
          · intro x hx hc
            rcases List.mem_append.1 hc with hc1 | hc1
            · exact hnvis x (List.mem_cons_of_mem _ hx) hc1
            · have hxnb : x = nb := by simpa using hc1
              subst hxnb
              exact (List.nodup_cons.1 hnodup).1 hx

theorem all_simple_paths_complete (g : NxDiGraph) (s t : String) (hst : s ≠ t)
    {q : List String} (hq : isPathFrom g s t q) (hnd : q.Nodup)
    (hlen : q.length ≤ 5) : q ∈ all_simple_paths g s t 4 := by
  obtain ⟨hne, hhead, hlast, hchain⟩ := hq
  rcases List.exists_cons_of_ne_nil hne with ⟨y, ys, hys⟩
  subst hys
  have hys2 : y = s := by simpa using hhead
  subst hys2
  unfold all_simple_paths
  rw [if_neg hst]
  refine List.mem_map.2 ⟨ys, ?_, rfl⟩
  have hys_ne : ys ≠ [] := by
    intro hr
    rw [hr] at hlast
    simp at hlast
    exact hst hlast
  refine simplePathsFrom_complete g t ys 4 y [y] hys_ne ?_ hchain ?_ ?_ ?_
  · rw [← getLast?_cons_of_ne_nil hys_ne y]
    exact hlast
  · have hlen2 : ys.length + 1 ≤ 5 := by simpa using hlen
    omega
  · exact (List.nodup_cons.1 hnd).2
  · intro x hx hc
    have hxs : x = y := by simpa using hc
    subst hxs
    exact (List.nodup_cons.1 hnd).1 hx

theorem pairwise_insertionSort_byLen (l : List (List String)) :
    (List.insertionSort byLen l).Pairwise byLen := by
  haveI : IsTotal (List String) byLen := ⟨fun a b => Nat.le_total a.length b.length⟩
  haveI : IsTrans (List String) byLen := ⟨fun a b c h1 h2 => le_trans h1 h2⟩
  exact List.sorted_insertionSort byLen l

/-- **C6.** `find_paths` returns an empty sequence — it is a total
function, never an error — whenever either endpoint is absent or no
directed path exists; every returned path is a simple directed path from
source to target with at most 4 edges; at most `max_paths` paths are
returned, ordered shortest-first; and (for distinct endpoints) the
enumerated candidate set is exactly the simple paths of at most 4 edges. -/
theorem C6_find_paths_total (g : GraphRAG) (s t : String) (mp : ℕ) :
    (s ∉ g.graph.nodeList ∨ t ∉ g.graph.nodeList → g.find_paths s t mp = [])
    ∧ (∀ q ∈ g.find_paths s t mp, isPathFrom g.graph s t q ∧ q.Nodup ∧ q.length ≤ 5)
    ∧ ((¬ ∃ q, isPathFrom g.graph s t q) → g.find_paths s t mp = [])
    ∧ (g.find_paths s t mp).length ≤ mp
    ∧ (g.find_paths s t mp).Pairwise byLen
    ∧ (s ≠ t → ∀ q, q ∈ all_simple_paths g.graph s t 4
        ↔ isPathFrom g.graph s t q ∧ q.Nodup ∧ q.length ≤ 5) := by
  have hsub : ∀ q ∈ g.find_paths s t mp, q ∈ all_simple_paths g.graph s t 4 := by
    intro q hq
    unfold GraphRAG.find_paths at hq
    by_cases hc : s ∉ g.graph.nodeList ∨ t ∉ g.graph.nodeList
    · rw [if_pos hc] at hq
      cases hq
    · rw [if_neg hc] at hq
      exact (List.perm_insertionSort byLen _).mem_iff.1 (List.mem_of_mem_take hq)
  refine ⟨?_, ?_, ?_, ?_, ?_, ?_⟩
  · intro hc
    unfold GraphRAG.find_paths
    rw [if_pos hc]
  · intro q hq
    exact all_simple_paths_sound g.graph s t q (hsub q hq)
  · intro hnp
    rw [List.eq_nil_iff_forall_not_mem]
    intro q hq
    exact hnp ⟨q, (all_simple_paths_sound g.graph s t q (hsub q hq)).1⟩
  · unfold GraphRAG.find_paths
    by_cases hc : s ∉ g.graph.nodeList ∨ t ∉ g.graph.nodeList
    · rw [if_pos hc]
      simp
    · rw [if_neg hc]
      exact List.length_take_le _ _
  · unfold GraphRAG.find_paths
    by_cases hc : s ∉ g.graph.nodeList ∨ t ∉ g.graph.nodeList
    · rw [if_pos hc]
      exact List.Pairwise.nil
    · rw [if_neg hc]
      exact List.Pairwise.sublist (List.take_sublist _ _) (pairwise_insertionSort_byLen _)
  · intro hst q
    constructor
    · intro hq
      exact all_simple_paths_sound g.graph s t q hq
    · rintro ⟨h1, h2, h3⟩
      exact all_simple_paths_complete g.graph s t hst h1 h2 h3

/-- Witness for C6: a missing endpoint yields `[]`; the chain path
`a → b → c` is certified by the theorem; and on `gBack` (only edge
`b → a`) the no-path case from `a` to `b` yields `[]`. -/
theorem C6_find_paths_total_witness :
    gChain.find_paths "a" "zzz" 3 = []
    ∧ (isPathFrom gChain.graph "a" "c" ["a", "b", "c"]
        ∧ ["a", "b", "c"].Nodup ∧ ["a", "b", "c"].length ≤ 5)
    ∧ gBack.find_paths "a" "b" 3 = [] := by
  have hnp : ¬ ∃ q, isPathFrom gBack.graph "a" "b" q := by
    rintro ⟨q, hne, hhead, hlast, hchain⟩
    rcases List.exists_cons_of_ne_nil hne with ⟨y, ys, hys⟩
    subst hys
    have hy : y = "a" := by simpa using hhead
    subst hy
    cases ys with
    | nil => simp at hlast
    | cons z zs =>
      have hedge := (List.chain'_cons.1 hchain).1
      have hnone : dictGet gBack.graph.edgeList ("a", z) = none := by
        have hne2 : ¬ ((("b", "a") : String × String) = ("a", z)) := by
          intro hc
          have hba : ("b" : String) = "a" := congrArg Prod.fst hc
          exact absurd hba (by decide)
        show dictGet [(("b", "a"), ⟨.affects, 1⟩)] ("a", z) = none
        simp [dictGet, hne2]
      unfold hasEdgeB at hedge
      rw [hnone] at hedge
      cases hedge
  refine ⟨(C6_find_paths_total gChain "a" "zzz" 3).1 (Or.inr (by decide)), ?_, ?_⟩
  · exact (C6_find_paths_total gChain "a" "c" 3).2.1 ["a", "b", "c"] (by decide)
  · exact (C6_find_paths_total gBack "a" "b" 3).2.2.1 hnp

/- ### C7: graph query -/

/-- **C7 (amended).** `query` matches exactly the nodes whose lowercased
name contains some lowercase whitespace token of the query text as a
substring, capped at the first `max_nodes` in insertion order; and for
every ordered pair of matched nodes `(n_i, n_j)` with `i < j` in match
order, the direct edge `n_i → n_j`, when present in the graph, is
included in the returned edges.  (Edges running from a later-matched to
an earlier-matched node are not collected — see the counterexample.) -/
theorem C7_query_matching (g : GraphRAG) (q : String) (max_nodes : ℕ) :
    (g.query q max_nodes).nodes
      = ((g.nodes.map (fun p => p.2)).filter (queryTokenHit (pyTokenize q))).take max_nodes
    ∧ ∀ pr ∈ pairsAfter (g.query q max_nodes).nodes,
        ∀ attrs : EdgeAttrs,
          dictGet g.graph.edgeList (pr.1.node_id, pr.2.node_id) = some attrs →
          (⟨pr.1.node_id, pr.2.node_id, attrs.relationship, attrs.weight, []⟩ : GraphEdge)
            ∈ (g.query q max_nodes).edges := by
  refine ⟨rfl, ?_⟩
  intro pr hpr attrs hattrs
  show _ ∈ (pairsAfter _).filterMap _
  refine List.mem_filterMap.2 ⟨pr, hpr, ?_⟩
  rw [hattrs]
  rfl

/-- Witness for C7's amended theorem: in the chain graph the matched pair
`(alpha, beta)` has the forward edge `a → b`, which is collected. -/
theorem C7_query_matching_witness :
    (⟨"a", "b", .affects, 1, []⟩ : GraphEdge) ∈ (gChain.query "alpha beta" 10).edges := by
  exact (C7_query_matching gChain "alpha beta" 10).2 (nodeAlpha, nodeBeta) (by decide)
    ⟨.affects, 1⟩ (by decide)

/-- **C7 counterexample.** In `gBack`, query "alpha beta" matches nodes
`a` then `b`; the graph holds the direct edge `b → a` between this
matched pair, yet the returned edges are empty — only the `i < j`
direction (`a → b`) is ever checked, refuting "the direct edges between
them are included" for every pair. -/
theorem C7_query_counterexample :
    (gBack.query "alpha beta" 10).nodes = [nodeAlpha, nodeBeta]
    ∧ dictGet gBack.graph.edgeList ("b", "a") = some ⟨.affects, 1⟩
    ∧ (gBack.query "alpha beta" 10).edges = [] := by
  exact ⟨by decide, by decide, by decide⟩
